import Mathlib

set_option maxRecDepth 20000

/-!
Verification development for the word-level audio/caption synchronization
pipeline of the reddit-tiktok-automation repository.

The Python source is embedded shallowly:

* text is `List Char` (Python `str`), positions are `Nat`/`Int`;
* Python floats are embedded as `ℚ` with their decimal literal values;
* regular expressions are embedded as explicit scanners that mirror the
  scanning/backtracking behaviour of the concrete patterns used by the code.

Embedded components:

* `TextNormalizer` — `src/processors/text_normalizer.py`
  (`process_for_sync` and its transformation passes);
* `VideoGen` — `src/generators/video_generator.py`
  (`_apply_tts_text_to_segments`, `_calculate_word_timings_estimated`,
  `_align_tts_text_with_whisper_timing`, `_estimate_syllables`);
* `WhisperS2T` — `src/generators/whispers2t_analyzer.py`
  (`_estimate_natural_word_timing`, `_estimate_syllables`).
-/

/-- Characters of a string literal. -/
def chars (s : String) : List Char := s.toList

/-- Python regex `\w` on ASCII input: letters, digits and underscore. -/
def isWordChar (c : Char) : Bool := c.isAlphanum || c == '_'

def isWordCharO : Option Char → Bool
  | some c => isWordChar c
  | none => false

/-- Fuel-driven scan deciding whether `pat` occurs as a contiguous substring
of `full` (Python `pat in full`). -/
def containsSubAux (pat full : List Char) : Nat → Nat → Bool
  | 0, _ => false
  | fuel + 1, i =>
    if i + pat.length > full.length then false
    else if List.isPrefixOf pat (full.drop i) then true
    else containsSubAux pat full fuel (i + 1)

def containsSub (pat full : List Char) : Bool :=
  containsSubAux pat full (full.length + 1) 0

/-- Literal `pat` matches at offset `i` of `t`. -/
def matchesLit (pat t : List Char) (i : Nat) : Bool :=
  List.isPrefixOf pat (t.drop i)

/-- Python `text[a:b]` for non-negative bounds: clamp, then slice. -/
def pySlice (t : List Char) (a b : Int) : List Char :=
  (t.take b.toNat).drop a.toNat

/-- Python `str.split()`: split on whitespace runs, dropping empty pieces. -/
def pySplit (t : List Char) : List (List Char) :=
  (List.splitOnP (fun c => c.isWhitespace) t).filter (fun p => !p.isEmpty)

namespace TextNormalizer

/-- `TransformationType` enum of `text_normalizer.py`. -/
inductive TransformationType where
  | AGE_GENDER
  | CURRENCY
  | ABBREVIATION
  | CONTRACTION
  | NUMBER
  | PUNCTUATION
  | REDDIT_TERM
deriving DecidableEq

/-- `TextMapping` dataclass: one transformation instance with character
offsets into the original and the TTS text. -/
structure TextMapping where
  original_text : List Char
  tts_text : List Char
  original_start : Int
  original_end : Int
  tts_start : Int
  tts_end : Int
  transformation_type : TransformationType
deriving DecidableEq

/-- `NormalizedText` dataclass. The `transformation_log` field (diagnostic
count/example strings built from the same mapping lists) is not modelled;
every claim is about `word_mappings` and the two texts. -/
structure NormalizedText where
  original_text : List Char
  tts_text : List Char
  word_mappings : List TextMapping
deriving DecidableEq

/-- One raw regex match: start offset, matched text, replacement text. -/
abbrev RawMatch := Nat × List Char × List Char

/-- Replace the matches (held with ascending start offsets) from last to
first, exactly as the source does for its pre-computed match lists; for
non-overlapping matches this also equals Python `re.sub`. -/
def replaceAllDesc (t : List Char) (ms : List RawMatch) : List Char :=
  ms.reverse.foldl (fun acc m => acc.take m.1 ++ m.2.2 ++ acc.drop (m.1 + m.2.1.length)) t

/-- Build the `TextMapping` recorded by a match callback: tts offsets are the
match offsets, to be adjusted afterwards. -/
def mkMapping (tt : TransformationType) (m : RawMatch) : TextMapping :=
  { original_text := m.2.1
    tts_text := m.2.2
    original_start := (m.1 : Int)
    original_end := (m.1 : Int) + m.2.1.length
    tts_start := (m.1 : Int)
    tts_end := (m.1 : Int) + m.2.2.length
    transformation_type := tt }

/-- The cumulative-offset adjustment loop run by the age/gender and currency
passes after `re.sub`. -/
def adjustMappings : Int → List TextMapping → List TextMapping
  | _, [] => []
  | off, m :: ms =>
    { m with
      tts_start := m.tts_start + off
      tts_end := m.tts_start + off + m.tts_text.length } ::
      adjustMappings (off + (m.tts_text.length : Int) - (m.original_text.length : Int)) ms

/-- Age-context cue substrings of `_is_age_context`. -/
def ageIndicators : List (List Char) :=
  [chars "sister", chars "brother", chars "friend", chars "roommate", chars "coworker",
   chars "boyfriend", chars "girlfriend", chars "husband", chars "wife", chars "partner",
   chars "son", chars "daughter", chars "parent", chars "mother", chars "father",
   chars "years old", chars "age", chars "born", chars "birthday"]

/-- `_is_age_context`: any cue is a substring of the lower-cased text. -/
def isAgeContext (text : List Char) : Bool :=
  ageIndicators.any (fun ind => containsSub ind (text.map Char.toLower))

def isMFChar (c : Char) : Bool := c == 'M' || c == 'F' || c == 'm' || c == 'f'

/-- Replacement computed by `replace_age_gender`: digits, a space, then
`male`/`female` by the upper-cased gender letter. -/
def ageReplacement (digits : List Char) (g : Char) : List Char :=
  if g.toUpper == 'M' then digits ++ chars " male" else digits ++ chars " female"

/-- Match of the regex `\((\d{1,2}[MFmf])\)` at offset `i` (the greedy
two-digit attempt first, then the one-digit fallback). -/
def ageMatchAt (t : List Char) (i : Nat) : Option RawMatch :=
  match t.get? i, t.get? (i+1) with
  | some '(', some d1 =>
    if d1.isDigit then
      match t.get? (i+2) with
      | some d2 =>
        if d2.isDigit then
          match t.get? (i+3), t.get? (i+4) with
          | some g, some ')' =>
            if isMFChar g then
              some (i, ['(', d1, d2, g, ')'], ageReplacement [d1, d2] g)
            else none
          | _, _ => none
        else if isMFChar d2 then
          match t.get? (i+3) with
          | some ')' => some (i, ['(', d1, d2, ')'], ageReplacement [d1] d2)
          | _ => none
        else none
      | none => none
    else none
  | _, _ => none

/-- Left-to-right non-overlapping scan of the age/gender pattern. -/
def findAgeAux (t : List Char) : Nat → Nat → List RawMatch
  | 0, _ => []
  | fuel + 1, i =>
    if i ≥ t.length then []
    else
      match ageMatchAt t i with
      | some m => m :: findAgeAux t fuel (i + m.2.1.length)
      | none => findAgeAux t fuel (i + 1)

def findAgeMatches (t : List Char) : List RawMatch :=
  findAgeAux t (t.length + 1) 0

/-- `_transform_age_gender` (the `original` argument of the source is unused
by its body and is kept for signature fidelity). -/
def transformAgeGender (text _original : List Char) : List Char × List TextMapping :=
  if isAgeContext text then
    let ms := findAgeMatches text
    (replaceAllDesc text ms, adjustMappings 0 (ms.map (mkMapping TransformationType.AGE_GENDER)))
  else (text, [])

/-- The `(?:,\d{3})*` part of the currency regex: greedily consume
comma-plus-three-digit groups from offset `j`. -/
def commaGroupsAux (t : List Char) : Nat → Nat → List Char
  | 0, _ => []
  | fuel + 1, j =>
    match t.get? j, t.get? (j+1), t.get? (j+2), t.get? (j+3) with
    | some ',', some a, some b, some c =>
      if a.isDigit && b.isDigit && c.isDigit then
        ',' :: a :: b :: c :: commaGroupsAux t fuel (j + 4)
      else []
    | _, _, _, _ => []

/-- The `(?:\.\d{2})?` part of the currency regex at offset `j`. -/
def centsAt (t : List Char) (j : Nat) : List Char :=
  match t.get? j, t.get? (j+1), t.get? (j+2) with
  | some '.', some a, some b => if a.isDigit && b.isDigit then ['.', a, b] else []
  | _, _, _ => []

/-- Match of `\$(\d{1,3}(?:,\d{3})*(?:\.\d{2})?)` at offset `i`: after `$`,
the greedy 1–3 digit head, then comma groups, then optional cents (the
optional parts match empty, so the greedy head never backtracks). -/
def currencyMatchAt (t : List Char) (i : Nat) : Option RawMatch :=
  match t.get? i with
  | some '$' =>
    let run := ((t.drop (i+1)).takeWhile Char.isDigit).take 3
    if run.isEmpty then none
    else
      let groups := commaGroupsAux t (t.length + 1) (i + 1 + run.length)
      let amount := run ++ groups ++ centsAt t (i + 1 + run.length + groups.length)
      some (i, '$' :: amount, amount ++ chars " dollars")
  | _ => none

def findCurrencyAux (t : List Char) : Nat → Nat → List RawMatch
  | 0, _ => []
  | fuel + 1, i =>
    if i ≥ t.length then []
    else
      match currencyMatchAt t i with
      | some m => m :: findCurrencyAux t fuel (i + m.2.1.length)
      | none => findCurrencyAux t fuel (i + 1)

def findCurrencyMatches (t : List Char) : List RawMatch :=
  findCurrencyAux t (t.length + 1) 0

/-- `_transform_currency` (its `original` argument is likewise unused). -/
def transformCurrency (text _original : List Char) : List Char × List TextMapping :=
  let ms := findCurrencyMatches text
  (replaceAllDesc text ms, adjustMappings 0 (ms.map (mkMapping TransformationType.CURRENCY)))

/-- `reddit_abbreviations`, already in the order produced by
`sorted(items, key=len(key), reverse=True)` (stable: ties keep the
dictionary's insertion order). -/
def sortedAbbrevs : List (List Char × List Char) :=
  [(chars "TL;DR", chars "Too long didn't read"),
   (chars "AFAIK", chars "As far as I know"),
   (chars "AITA", chars "Am I the asshole"),
   (chars "TIFU", chars "Today I fucked up"),
   (chars "IIRC", chars "If I recall correctly"),
   (chars "IMHO", chars "In my humble opinion"),
   (chars "YTA", chars "You're the asshole"),
   (chars "NTA", chars "Not the asshole"),
   (chars "ESH", chars "Everyone sucks here"),
   (chars "NAH", chars "No assholes here"),
   (chars "ETA", chars "Edited to add"),
   (chars "IMO", chars "In my opinion"),
   (chars "TBH", chars "To be honest"),
   (chars "IDK", chars "I don't know"),
   (chars "IRL", chars "In real life"),
   (chars "MIL", chars "Mother in law"),
   (chars "FIL", chars "Father in law"),
   (chars "SIL", chars "Sister in law"),
   (chars "BIL", chars "Brother in law"),
   (chars "DM", chars "Direct message"),
   (chars "PM", chars "Private message"),
   (chars "OP", chars "Original poster"),
   (chars "SO", chars "Significant other"),
   (chars "BF", chars "Boyfriend"),
   (chars "GF", chars "Girlfriend")]

/-- `\b<key>\b` at offset `i`: the key's text matches and both neighbours
are non-word (every key starts and ends with a word character). -/
def wholeWordAt (key t : List Char) (i : Nat) : Bool :=
  List.isPrefixOf key (t.drop i) &&
    (decide (i = 0) || !isWordCharO (t.get? (i - 1))) &&
    !isWordCharO (t.get? (i + key.length))

/-- `re.finditer(rf'\b{key}\b', t)`: left-to-right, non-overlapping. -/
def findWBAux (key t : List Char) : Nat → Nat → List Nat
  | 0, _ => []
  | fuel + 1, i =>
    if i ≥ t.length then []
    else if wholeWordAt key t i then i :: findWBAux key t fuel (i + key.length)
    else findWBAux key t fuel (i + 1)

def findWB (key t : List Char) : List Nat :=
  findWBAux key t (t.length + 1) 0

/-- Does some whole-word occurrence of `key` exist in `t`? -/
def hasWholeWord (key t : List Char) : Bool :=
  (List.range t.length).any (fun i => wholeWordAt key t i)

/-- One dictionary key's pass inside `_transform_abbreviations` /
`_transform_numbers`: find all whole-word matches on the current text, then
(from last match to first) record a mapping and splice in the replacement. -/
def singleKeyStep (tt : TransformationType) (kv : List Char × List Char)
    (st : List Char × List TextMapping) : List Char × List TextMapping :=
  let ms := findWB kv.1 st.1
  let newMs := ms.reverse.map (fun p => mkMapping tt (p, kv.1, kv.2))
  let t' := ms.reverse.foldl (fun acc p => acc.take p ++ kv.2 ++ acc.drop (p + kv.1.length)) st.1
  (t', st.2 ++ newMs)

/-- `_transform_abbreviations`. -/
def transformAbbreviations (text : List Char) : List Char × List TextMapping :=
  sortedAbbrevs.foldl (fun st kv => singleKeyStep TransformationType.ABBREVIATION kv st) (text, [])

/-- `ordinals` dictionary of `_transform_numbers`, in insertion order. -/
def ordinals : List (List Char × List Char) :=
  [(chars "1st", chars "first"), (chars "2nd", chars "second"), (chars "3rd", chars "third"),
   (chars "4th", chars "fourth"), (chars "5th", chars "fifth"), (chars "6th", chars "sixth"),
   (chars "7th", chars "seventh"), (chars "8th", chars "eighth"), (chars "9th", chars "ninth"),
   (chars "10th", chars "tenth"), (chars "11th", chars "eleventh"), (chars "12th", chars "twelfth"),
   (chars "13th", chars "thirteenth"), (chars "14th", chars "fourteenth"), (chars "15th", chars "fifteenth"),
   (chars "16th", chars "sixteenth"), (chars "17th", chars "seventeenth"), (chars "18th", chars "eighteenth"),
   (chars "19th", chars "nineteenth"), (chars "20th", chars "twentieth"),
   (chars "21st", chars "twenty-first"), (chars "22nd", chars "twenty-second"), (chars "23rd", chars "twenty-third"),
   (chars "24th", chars "twenty-fourth"), (chars "25th", chars "twenty-fifth"), (chars "30th", chars "thirtieth")]

/-- `_transform_numbers`. -/
def transformNumbers (text : List Char) : List Char × List TextMapping :=
  ordinals.foldl (fun st kv => singleKeyStep TransformationType.NUMBER kv st) (text, [])

/-- `process_for_sync`: the four enabled passes in priority order (the
contraction pass is commented out in the source); `word_mappings` is the
concatenation of the passes' mappings (`_create_word_mappings` returns the
existing mappings unchanged). -/
def processForSync (text : List Char) : NormalizedText :=
  let r1 := transformAgeGender text text
  let r2 := transformCurrency r1.1 text
  let r3 := transformAbbreviations r2.1
  let r4 := transformNumbers r3.1
  { original_text := text
    tts_text := r4.1
    word_mappings := r1.2 ++ r2.2 ++ r3.2 ++ r4.2 }

end TextNormalizer

namespace VideoGen

/-- One `(word, start_time, end_time)` tuple of `video_generator.py`. -/
structure WordT where
  word : List Char
  start : ℚ
  stop : ℚ
deriving DecidableEq

/-- One `(start_time, end_time, text)` speech segment tuple. -/
structure Seg where
  start : ℚ
  stop : ℚ
  text : List Char
deriving DecidableEq

/-- Inner loop of `_apply_tts_text_to_segments`: distribute the words of one
segment evenly (`word_start = seg_start + j*word_duration`, the end clamped
to the segment boundary). -/
def segTimings (segStart segStop wd : ℚ) : Nat → List (List Char) → List WordT
  | _, [] => []
  | j, w :: ws =>
    ⟨w, segStart + (j : ℚ) * wd, min (segStart + (j : ℚ) * wd + wd) segStop⟩ ::
      segTimings segStart segStop wd (j + 1) ws

/-- Segment loop of `_apply_tts_text_to_segments` over the remaining TTS
words: a non-final segment takes `max 1 (min segmentWordCount remaining)`
words, the final segment takes all remaining words; the loop breaks once the
words run out. -/
def applyAux : List (List Char) → List Seg → List WordT
  | _, [] => []
  | ws, s :: rest =>
    let segCount := if rest.isEmpty then ws.length else max 1 (min (pySplit s.text).length ws.length)
    let taken := ws.take segCount
    let wd := (s.stop - s.start) / (taken.length : ℚ)
    let rest' := ws.drop segCount
    segTimings s.start s.stop wd 0 taken ++ (if rest'.isEmpty then [] else applyAux rest' rest)

/-- `_apply_tts_text_to_segments` (its `total_duration` local is computed
but never used by the source and is not modelled). -/
def applyTtsTextToSegments (ttsText : List Char) (segments : List Seg) : List WordT :=
  if segments.isEmpty then []
  else
    let ttsWords := pySplit ttsText
    if ttsWords.isEmpty then [] else applyAux ttsWords segments

/-- Suffix strip of `_estimate_syllables`: the `$`-anchored alternation
`(ed|es|ing|ly|tion|sion)$` removes the longest (leftmost-positioned)
matching suffix, once. -/
def stripSuffixes (w : List Char) : List Char :=
  if List.isSuffixOf (chars "tion") w then w.take (w.length - 4)
  else if List.isSuffixOf (chars "sion") w then w.take (w.length - 4)
  else if List.isSuffixOf (chars "ing") w then w.take (w.length - 3)
  else if List.isSuffixOf (chars "ed") w then w.take (w.length - 2)
  else if List.isSuffixOf (chars "es") w then w.take (w.length - 2)
  else if List.isSuffixOf (chars "ly") w then w.take (w.length - 2)
  else w

def isVowelY (c : Char) : Bool :=
  c == 'a' || c == 'e' || c == 'i' || c == 'o' || c == 'u' || c == 'y'

def isVowel (c : Char) : Bool :=
  c == 'a' || c == 'e' || c == 'i' || c == 'o' || c == 'u'

def isConsonantCl (c : Char) : Bool :=
  (chars "bcdfghjklmnpqrstvwxyz").contains c

/-- Count the non-overlapping matches of `[class]{minLen,}`: maximal runs of
`p`-characters of length at least `minLen` (the scan consumes a counted run
whole and otherwise advances one position, as the regex engine does). -/
def countRunsAux (p : Char → Bool) (minLen : Nat) (t : List Char) : Nat → Nat → Nat
  | 0, _ => 0
  | fuel + 1, i =>
    if i ≥ t.length then 0
    else
      let run := ((t.drop i).takeWhile p).length
      if 1 ≤ run ∧ minLen ≤ run then 1 + countRunsAux p minLen t fuel (i + run)
      else countRunsAux p minLen t fuel (i + 1)

def countRuns (p : Char → Bool) (minLen : Nat) (t : List Char) : Nat :=
  countRunsAux p minLen t (t.length + 1) 0

/-- `video_generator._estimate_syllables`: lower-case, strip a suffix, count
`[aeiouy]+` runs, subtract a trailing silent `e`, floor at one. -/
def estimateSyllables (w : List Char) : Nat :=
  let lw := stripSuffixes (w.map Char.toLower)
  let syl := countRuns isVowelY 1 lw
  let syl := if lw.getLast? = some 'e' ∧ syl > 1 then syl - 1 else syl
  max 1 syl

/-- Count of `re.findall(r'[aeiou]{2,}|ough|tion|sion', lw)`: at each offset
the greedy vowel-run alternative is tried first, then the literals. -/
def countVowelComplexAux (t : List Char) : Nat → Nat → Nat
  | 0, _ => 0
  | fuel + 1, i =>
    if i ≥ t.length then 0
    else
      let run := ((t.drop i).takeWhile isVowel).length
      if run ≥ 2 then 1 + countVowelComplexAux t fuel (i + run)
      else if matchesLit (chars "ough") t i then 1 + countVowelComplexAux t fuel (i + 4)
      else if matchesLit (chars "tion") t i then 1 + countVowelComplexAux t fuel (i + 4)
      else if matchesLit (chars "sion") t i then 1 + countVowelComplexAux t fuel (i + 4)
      else countVowelComplexAux t fuel (i + 1)

def countVowelComplex (t : List Char) : Nat :=
  countVowelComplexAux t (t.length + 1) 0

def commonWords : List (List Char) :=
  [chars "i", chars "a", chars "the", chars "and", chars "or", chars "but", chars "in",
   chars "on", chars "at", chars "to", chars "for", chars "of", chars "with", chars "by"]

def auxiliaryWords : List (List Char) :=
  [chars "am", chars "is", chars "are", chars "was", chars "were", chars "have",
   chars "has", chars "had", chars "will", chars "would", chars "could", chars "should"]

/-- Per-word `duration_units` of `_calculate_word_timings_estimated`:
`syllables * 0.15`, times the consonant-cluster/vowel-pattern complexity
factor, times the word-frequency factor. -/
def wordDurationUnits (w : List Char) : ℚ :=
  let lw := w.map Char.toLower
  let syllables := estimateSyllables w
  let consonantClusters := countRuns isConsonantCl 2 lw
  let vowelComplexity := countVowelComplex lw
  let baseDuration := (syllables : ℚ) * 0.15
  let complexityFactor := (1 : ℚ) + (consonantClusters : ℚ) * 0.1 + (vowelComplexity : ℚ) * 0.1
  let frequencyFactor : ℚ :=
    if commonWords.contains lw then 0.7
    else if auxiliaryWords.contains lw then 0.8
    else 1.0
  baseDuration * complexityFactor * frequencyFactor

/-- Word extraction of `_calculate_word_timings_estimated`: the matches of
`\b\w+(?:'\w+)?\b` with their start offsets. -/
def extractWordsAux (t : List Char) : Nat → Nat → List (Nat × List Char)
  | 0, _ => []
  | fuel + 1, i =>
    if h : i < t.length then
      if isWordChar (t.get ⟨i, h⟩) then
        let run1 := (t.drop i).takeWhile isWordChar
        let after := t.drop (i + run1.length)
        let w :=
          match after with
          | '\'' :: a =>
            if (a.takeWhile isWordChar).isEmpty then run1
            else run1 ++ '\'' :: a.takeWhile isWordChar
          | _ => run1
        (i, w) :: extractWordsAux t fuel (i + w.length)
      else extractWordsAux t fuel (i + 1)
    else []

def extractWords (t : List Char) : List (Nat × List Char) :=
  extractWordsAux t (t.length + 1) 0

/-- `pause_time` looked up from the punctuation between one word and the
next (`between_text = text[pos+len(word) : next_pos]`). -/
def pauseValue (between : List Char) : ℚ :=
  if between.contains '.' || between.contains '!' || between.contains '?' then 0.4
  else if between.contains ',' || between.contains ';' || between.contains ':' then 0.2
  else if between.contains '"' || between.contains '\'' then 0.1
  else 0.05

/-- Pair every extracted word with its `duration_units` and the pause that
follows it (the source builds the same three equal-length parallel lists and
zips them). -/
def annotateWords (t : List Char) : List (Nat × List Char) → List (List Char × ℚ × ℚ)
  | [] => []
  | (pos, w) :: rest =>
    let nextPos := match rest with | [] => t.length | (p, _) :: _ => p
    (w, wordDurationUnits w, pauseValue (pySlice t (pos + w.length : Nat) (nextPos : Nat))) ::
      annotateWords t rest

/-- Emission loop: each word starts at the current time, lasts its scaled
duration, and is followed by its scaled pause. -/
def genTimings (scale : ℚ) : ℚ → List (List Char × ℚ × ℚ) → List WordT
  | _, [] => []
  | cur, (w, d, p) :: rest =>
    ⟨w, cur, cur + d * scale⟩ :: genTimings scale (cur + d * scale + p * scale) rest

/-- `_calculate_word_timings_estimated`. -/
def calculateWordTimingsEstimated (text : List Char) (audioDuration : ℚ) : List WordT :=
  let pairs := extractWords text
  if pairs.isEmpty then []
  else
    let annotated := annotateWords text pairs
    let totalEstimatedTime := (annotated.map (fun a => a.2.1)).sum + (annotated.map (fun a => a.2.2)).sum
    let scaleFactor := if totalEstimatedTime > 0 then audioDuration / totalEstimatedTime else 1
    genTimings scaleFactor 0 annotated

/-- Fallback branch of `_align_tts_text_with_whisper_timing` for an empty
anchor list: a 60-second default duration split evenly. -/
def alignNoAnchorsAux (wd : ℚ) : Nat → List (List Char) → List WordT
  | _, [] => []
  | i, w :: ws => ⟨w, (i : ℚ) * wd, ((i : ℚ) + 1) * wd⟩ :: alignNoAnchorsAux wd (i + 1) ws

/-- Mismatched-count branch: the i-th of n TTS words is timed at fraction
i/n of the anchors' total duration (the source's `whisper_index` local is
computed but never used and is not modelled). -/
def alignMismatchAux (T : ℚ) (n : Nat) : Nat → List (List Char) → List WordT
  | _, [] => []
  | i, w :: ws =>
    ⟨w, if i = 0 then 0 else ((i : ℚ) / (n : ℚ)) * T,
        if i = n - 1 then T else (((i : ℚ) + 1) / (n : ℚ)) * T⟩ ::
      alignMismatchAux T n (i + 1) ws

/-- `_align_tts_text_with_whisper_timing`. -/
def alignTtsTextWithWhisperTiming (ttsWords : List (List Char)) (anchors : List WordT) :
    List WordT :=
  if ttsWords.length = anchors.length then
    (ttsWords.zip anchors).map (fun p => ⟨p.1, p.2.start, p.2.stop⟩)
  else if anchors.length = 0 then
    alignNoAnchorsAux (60 / (ttsWords.length : ℚ)) 0 ttsWords
  else
    let totalDuration := match anchors.getLast? with | some a => a.stop | none => 60
    alignMismatchAux totalDuration ttsWords.length 0 ttsWords

end VideoGen

namespace WhisperS2T

/-- `WhisperS2TTiming` dataclass. -/
structure S2TTiming where
  word : List Char
  start : ℚ
  stop : ℚ
  confidence : ℚ
deriving DecidableEq

/-- `whispers2t_analyzer._estimate_syllables`: additionally strips every
non-`a-z` character first and returns 1 for an empty cleaned word. -/
def estimateSyllables (w : List Char) : Nat :=
  let cleaned := (w.map Char.toLower).filter (fun c => 'a' ≤ c && c ≤ 'z')
  if cleaned.isEmpty then 1
  else
    let stripped := VideoGen.stripSuffixes cleaned
    let syl := VideoGen.countRuns VideoGen.isVowelY 1 stripped
    let syl := if stripped.getLast? = some 'e' ∧ syl > 1 then syl - 1 else syl
    max 1 syl

def commonWords : List (List Char) :=
  [chars "i", chars "a", chars "the", chars "and", chars "or", chars "but", chars "in",
   chars "on", chars "at", chars "to", chars "for", chars "of", chars "with", chars "by"]

def auxiliaryWords : List (List Char) :=
  [chars "am", chars "is", chars "are", chars "was", chars "were", chars "have",
   chars "has", chars "had", chars "will", chars "would"]

/-- Per-word weight of `_estimate_natural_word_timing`: syllables times a
complexity factor built from length, difficult consonants, complex endings,
frequency discounts and trailing-punctuation pause bonuses. -/
def wordWeight (w : List Char) : ℚ :=
  let lw := w.map Char.toLower
  let syllables := estimateSyllables w
  let c1 : ℚ := 1 + (if w.length > 8 then 0.3 else 0)
  let c2 : ℚ := c1 + (if (chars "xzvqj").any (fun c => lw.contains c) then 0.2 else 0)
  let c3 : ℚ := c2 +
    (if List.isSuffixOf (chars "tion") w || List.isSuffixOf (chars "sion") w ||
        List.isSuffixOf (chars "ous") w || List.isSuffixOf (chars "ment") w then 0.2 else 0)
  let c4 : ℚ :=
    if commonWords.contains lw then c3 * 0.7
    else if auxiliaryWords.contains lw then c3 * 0.8
    else c3
  let c5 : ℚ := c4 +
    (if w.getLast? = some '.' || w.getLast? = some '!' || w.getLast? = some '?' then 0.5
     else if w.getLast? = some ',' then 0.2 else 0)
  (syllables : ℚ) * c5

/-- Distribution loop of `_estimate_natural_word_timing`: each word gets the
larger of its proportional share and 0.1 s, clamped so it does not pass the
segment end; the loop breaks once the segment end is reached. -/
def estimateAux (segEnd totalWeight segmentDuration : ℚ) :
    ℚ → List (List Char × ℚ) → List S2TTiming
  | _, [] => []
  | cur, (w, wt) :: rest =>
    let d0 := max ((wt / totalWeight) * segmentDuration) 0.1
    let d := if cur + d0 > segEnd then segEnd - cur else d0
    ⟨w, cur, cur + d, 0.9⟩ ::
      (if cur + d ≥ segEnd then [] else estimateAux segEnd totalWeight segmentDuration (cur + d) rest)

/-- `_estimate_natural_word_timing`. -/
def estimateNaturalWordTiming (words : List (List Char)) (segStart segEnd : ℚ) :
    List S2TTiming :=
  if words.isEmpty then []
  else
    let segmentDuration := segEnd - segStart
    let weights := words.map wordWeight
    let totalWeight := weights.sum
    let totalWeight := if totalWeight = 0 then (words.length : ℚ) else totalWeight
    estimateAux segEnd totalWeight segmentDuration segStart (words.zip weights)

end WhisperS2T


/-! ### Helper lemmas about the normalizer's mapping lists -/

namespace TextNormalizer

theorem mkMapping_type (tt : TransformationType) (m : RawMatch) :
    (mkMapping tt m).transformation_type = tt := rfl

theorem adjustMappings_type (tt : TransformationType) :
    ∀ (off : Int) (l : List TextMapping), (∀ m ∈ l, m.transformation_type = tt) →
      ∀ m ∈ adjustMappings off l, m.transformation_type = tt := by
  intro off l
  induction l generalizing off with
  | nil => intro _ m hm; simp [adjustMappings] at hm
  | cons a as ih =>
    intro hl m hm
    simp only [adjustMappings, List.mem_cons] at hm
    rcases hm with h | h
    · subst h; exact hl a (List.mem_cons_self a as)
    · exact ih _ (fun m hm => hl m (List.mem_cons_of_mem a hm)) m h

theorem transformCurrency_types (t o : List Char) :
    ∀ m ∈ (transformCurrency t o).2,
      m.transformation_type = TransformationType.CURRENCY := by
  intro m hm
  simp only [transformCurrency] at hm
  refine adjustMappings_type _ _ _ ?_ m hm
  intro m' hm'
  rcases List.mem_map.mp hm' with ⟨r, _, rfl⟩
  rfl

theorem transformAgeGender_types (t o : List Char) :
    ∀ m ∈ (transformAgeGender t o).2,
      m.transformation_type = TransformationType.AGE_GENDER := by
  intro m hm
  simp only [transformAgeGender] at hm
  split at hm
  · refine adjustMappings_type _ _ _ ?_ m hm
    intro m' hm'
    rcases List.mem_map.mp hm' with ⟨r, _, rfl⟩
    rfl
  · simp at hm

theorem foldSteps_mem (tt : TransformationType) :
    ∀ (L : List (List Char × List Char)) (st : List Char × List TextMapping)
      (m : TextMapping),
      m ∈ (L.foldl (fun s kv => singleKeyStep tt kv s) st).2 →
      m ∈ st.2 ∨ ∃ kv ∈ L, ∃ p : Nat, m = mkMapping tt (p, kv.1, kv.2) := by
  intro L
  induction L with
  | nil => intro st m hm; exact Or.inl hm
  | cons kv L ih =>
    intro st m hm
    rcases ih _ m hm with h | ⟨kv', hkv', p, hp⟩
    · simp only [singleKeyStep, List.mem_append] at h
      rcases h with h | h
      · exact Or.inl h
      · rcases List.mem_map.mp h with ⟨p, _, rfl⟩
        exact Or.inr ⟨kv, List.mem_cons_self _ _, p, rfl⟩
    · exact Or.inr ⟨kv', List.mem_cons_of_mem _ hkv', p, hp⟩

theorem transformAbbreviations_types (t : List Char) :
    ∀ m ∈ (transformAbbreviations t).2,
      m.transformation_type = TransformationType.ABBREVIATION := by
  intro m hm
  rcases foldSteps_mem _ _ _ m hm with h | ⟨kv, _, p, rfl⟩
  · simp at h
  · rfl

theorem transformNumbers_types (t : List Char) :
    ∀ m ∈ (transformNumbers t).2,
      m.transformation_type = TransformationType.NUMBER := by
  intro m hm
  rcases foldSteps_mem _ _ _ m hm with h | ⟨kv, _, p, rfl⟩
  · simp at h
  · rfl

end TextNormalizer

/-! ### Claim C8 -/

/-- C8: normalizing `"My sister (28F) asked for $2,000."` (an age-context
paragraph: it contains the cue `sister`) yields the TTS text
`"My sister 28 female asked for 2,000 dollars."` and exactly two
TextMappings, of kinds age_gender and currency, in that order. -/
theorem c8_scenario_a :
    (TextNormalizer.processForSync (chars "My sister (28F) asked for $2,000.")).tts_text =
        chars "My sister 28 female asked for 2,000 dollars." ∧
      (TextNormalizer.processForSync (chars "My sister (28F) asked for $2,000.")).word_mappings.map
          (fun m => m.transformation_type) =
        [TextNormalizer.TransformationType.AGE_GENDER,
         TextNormalizer.TransformationType.CURRENCY] := by
  constructor <;> decide

/-! ### Claim C3 -/

/-- C3 (bug evidence): on `"My sister (28F) asked for $2,000."` the currency
pass records offsets into the intermediate age-transformed text, so slicing
the original input at the recorded `original_start..original_end` does not
return the replaced source substring `"$2,000"` (the slice gives `"00."`).
The claim's round-trip property fails on the code as written. -/
theorem c3_offset_mismatch :
    ∃ m ∈ (TextNormalizer.processForSync
        (chars "My sister (28F) asked for $2,000.")).word_mappings,
      pySlice (TextNormalizer.processForSync
          (chars "My sister (28F) asked for $2,000.")).original_text
          m.original_start m.original_end ≠ m.original_text := by
  decide

/-! ### Claim C9 -/

/-- C9: when the input text contains no age-context cue substring, the
age/gender pass returns the text unchanged with no mappings, and the whole
normalization produces no mapping of kind age_gender. -/
theorem c9_no_context_passthrough :
    (∀ t o : List Char, TextNormalizer.isAgeContext t = false →
        TextNormalizer.transformAgeGender t o = (t, [])) ∧
      (∀ t : List Char, TextNormalizer.isAgeContext t = false →
        ∀ m ∈ (TextNormalizer.processForSync t).word_mappings,
          m.transformation_type ≠ TextNormalizer.TransformationType.AGE_GENDER) := by
  have h1 : ∀ t o : List Char, TextNormalizer.isAgeContext t = false →
      TextNormalizer.transformAgeGender t o = (t, []) := by
    intro t o h
    simp [TextNormalizer.transformAgeGender, h]
  refine ⟨h1, ?_⟩
  intro t h m hm
  simp only [TextNormalizer.processForSync, h1 t t h] at hm
  simp only [List.append_assoc, List.mem_append, List.nil_append] at hm
  rcases hm with h2 | h2 | h2
  · rw [TextNormalizer.transformCurrency_types _ _ m h2]; intro hc; cases hc
  · rw [TextNormalizer.transformAbbreviations_types _ m h2]; intro hc; cases hc
  · rw [TextNormalizer.transformNumbers_types _ m h2]; intro hc; cases hc

/-- Witness for C9 at a concrete cue-free text. -/
theorem c9_witness :
    TextNormalizer.transformAgeGender (chars "The dog (28F) barked.")
        (chars "The dog (28F) barked.") = (chars "The dog (28F) barked.", []) ∧
      ∀ m ∈ (TextNormalizer.processForSync (chars "The dog (28F) barked.")).word_mappings,
        m.transformation_type ≠ TextNormalizer.TransformationType.AGE_GENDER :=
  ⟨c9_no_context_passthrough.1 _ _ (by decide),
   c9_no_context_passthrough.2 _ (by decide)⟩

/-! ### Claim C6 -/

namespace VideoGen

theorem zipMap_starts :
    ∀ (ws : List (List Char)) (as_ : List WordT), ws.length = as_.length →
      (((ws.zip as_).map (fun p => (⟨p.1, p.2.start, p.2.stop⟩ : WordT))).map (fun e => e.start) =
          as_.map (fun a => a.start) ∧
        ((ws.zip as_).map (fun p => (⟨p.1, p.2.start, p.2.stop⟩ : WordT))).map (fun e => e.stop) =
          as_.map (fun a => a.stop) ∧
        ((ws.zip as_).map (fun p => (⟨p.1, p.2.start, p.2.stop⟩ : WordT))).map (fun e => e.word) =
          ws) := by
  intro ws
  induction ws with
  | nil =>
    intro as_ h
    cases as_ with
    | nil => simp
    | cons a as_ => simp at h
  | cons w ws ih =>
    intro as_ h
    cases as_ with
    | nil => simp at h
    | cons a as_ =>
      simp only [List.length_cons, Nat.succ.injEq] at h
      rcases ih as_ h with ⟨h1, h2, h3⟩
      simp [List.zip_cons_cons, h1, h2, h3]

theorem zipMap_identity :
    ∀ (as_ : List WordT),
      ((as_.map (fun a => a.word)).zip as_).map
          (fun p => (⟨p.1, p.2.start, p.2.stop⟩ : WordT)) = as_ := by
  intro as_
  induction as_ with
  | nil => simp
  | cons a as_ ih => simp [List.zip_cons_cons, ih]

end VideoGen

/-! ### Claim C5 -/

namespace VideoGen

theorem alignMismatchAux_length (T : ℚ) (n : Nat) :
    ∀ (j : Nat) (ws : List (List Char)), (alignMismatchAux T n j ws).length = ws.length := by
  intro j ws
  induction ws generalizing j with
  | nil => simp [alignMismatchAux]
  | cons w ws ih => simp [alignMismatchAux, ih]

theorem alignMismatchAux_get? (T : ℚ) (n : Nat) :
    ∀ (ws : List (List Char)) (j i : Nat),
      (alignMismatchAux T n j ws).get? i =
        (ws.get? i).map (fun w =>
          (⟨w, if j + i = 0 then 0 else (((j + i : Nat) : ℚ) / (n : ℚ)) * T,
              if j + i = n - 1 then T
              else ((((j + i : Nat) : ℚ) + 1) / (n : ℚ)) * T⟩ : WordT)) := by
  intro ws
  induction ws with
  | nil => intro j i; simp [alignMismatchAux]
  | cons w ws ih =>
    intro j i
    cases i with
    | zero => simp [alignMismatchAux]
    | succ i =>
      simp only [alignMismatchAux, List.get?_cons_succ]
      rw [ih (j + 1) i]
      have hji : j + 1 + i = j + (i + 1) := by omega
      rw [hji]

theorem alignNoAnchorsAux_length (wd : ℚ) :
    ∀ (j : Nat) (ws : List (List Char)), (alignNoAnchorsAux wd j ws).length = ws.length := by
  intro j ws
  induction ws generalizing j with
  | nil => simp [alignNoAnchorsAux]
  | cons w ws ih => simp [alignNoAnchorsAux, ih]

end VideoGen

/-- C5: with word-level anchors whose count differs from the TTS word count
(anchors present), reconciliation re-times proportionally: the i-th of n TTS
words gets start `(i/n)*T` and end `((i+1)/n)*T` for `T` the last anchor's
end, so the output covers `[0, T]` monotonically with no gaps. -/
theorem c5_proportional_retiming :
    ∀ (ttsWords : List (List Char)) (anchors : List VideoGen.WordT) (a : VideoGen.WordT),
      anchors.getLast? = some a → ttsWords.length ≠ anchors.length →
      (VideoGen.alignTtsTextWithWhisperTiming ttsWords anchors).length = ttsWords.length ∧
      (∀ (i : Nat) (w : List Char), ttsWords.get? i = some w →
        (VideoGen.alignTtsTextWithWhisperTiming ttsWords anchors).get? i =
          some ⟨w, ((i : ℚ) / (ttsWords.length : ℚ)) * a.stop,
                   (((i : ℚ) + 1) / (ttsWords.length : ℚ)) * a.stop⟩) ∧
      List.Chain' (fun x y => x.stop = y.start)
        (VideoGen.alignTtsTextWithWhisperTiming ttsWords anchors) ∧
      (∀ x ∈ (VideoGen.alignTtsTextWithWhisperTiming ttsWords anchors).head?, x.start = 0) ∧
      (∀ x ∈ (VideoGen.alignTtsTextWithWhisperTiming ttsWords anchors).getLast?,
        x.stop = a.stop) := by
  intro ws anchors a hlast hne
  have h0 : ¬ anchors.length = 0 := by
    intro h
    rw [List.length_eq_zero] at h
    subst h
    simp at hlast
  have halign : VideoGen.alignTtsTextWithWhisperTiming ws anchors =
      VideoGen.alignMismatchAux a.stop ws.length 0 ws := by
    simp only [VideoGen.alignTtsTextWithWhisperTiming]
    rw [if_neg hne, if_neg h0, hlast]
  have hget : ∀ (i : Nat) (w : List Char), ws.get? i = some w →
      (VideoGen.alignTtsTextWithWhisperTiming ws anchors).get? i =
        some (⟨w, ((i : ℚ) / (ws.length : ℚ)) * a.stop,
                  (((i : ℚ) + 1) / (ws.length : ℚ)) * a.stop⟩ : VideoGen.WordT) := by
    intro i w hw
    have hi : i < ws.length := by
      have := List.get?_eq_some.mp hw
      exact this.1
    have hlen1 : 1 ≤ ws.length := by omega
    rw [halign, VideoGen.alignMismatchAux_get? a.stop ws.length ws 0 i, hw]
    simp only [Option.map_some', Nat.zero_add]
    congr 1
    refine congrArg₂ (fun s t => (⟨w, s, t⟩ : VideoGen.WordT)) ?_ ?_
    · split
      · rename_i hz
        subst hz
        norm_num
      · rfl
    · split
      · rename_i hz
        rw [hz]
        have : ((ws.length - 1 : Nat) : ℚ) + 1 = (ws.length : ℚ) := by
          push_cast [Nat.cast_sub hlen1]
          ring
        rw [this, div_self, one_mul]
        exact_mod_cast Nat.cast_ne_zero.mpr (by omega)
      · rfl
  have hlength : (VideoGen.alignTtsTextWithWhisperTiming ws anchors).length = ws.length := by
    rw [halign, VideoGen.alignMismatchAux_length]
  refine ⟨hlength, hget, ?_, ?_, ?_⟩
  · rw [List.chain'_iff_get]
    intro i hilt
    rw [hlength] at hilt
    have hi1 : i < ws.length := by omega
    have hi2 : i + 1 < ws.length := by omega
    obtain ⟨w1, hw1⟩ : ∃ w, ws.get? i = some w := ⟨_, List.get?_eq_get hi1⟩
    obtain ⟨w2, hw2⟩ : ∃ w, ws.get? (i + 1) = some w := ⟨_, List.get?_eq_get hi2⟩
    have e1 := hget i w1 hw1
    have e2 := hget (i + 1) w2 hw2
    rw [List.get?_eq_get (by omega : i < (VideoGen.alignTtsTextWithWhisperTiming ws anchors).length)] at e1
    rw [List.get?_eq_get (by omega : i + 1 < (VideoGen.alignTtsTextWithWhisperTiming ws anchors).length)] at e2
    rw [Option.some_inj] at e1 e2
    rw [e1, e2]
    push_cast
    ring
  · intro x hx
    cases ws with
    | nil =>
      rw [halign] at hx
      simp [VideoGen.alignMismatchAux] at hx
    | cons w0 ws' =>
      have e0 := hget 0 w0 rfl
      rw [List.get?_zero] at e0
      rw [e0] at hx
      simp only [Option.mem_def, Option.some_inj] at hx
      subst hx
      norm_num
  · intro x hx
    cases hws : ws with
    | nil =>
      subst hws
      rw [halign] at hx
      simp [VideoGen.alignMismatchAux] at hx
    | cons w0 ws' =>
      have hlen1 : 1 ≤ ws.length := by rw [hws]; simp
      have hi : ws.length - 1 < ws.length := by omega
      obtain ⟨w1, hw1⟩ : ∃ w, ws.get? (ws.length - 1) = some w := ⟨_, List.get?_eq_get hi⟩
      have e1 := hget (ws.length - 1) w1 hw1
      rw [List.getLast?_eq_get?, hlength, e1] at hx
      simp only [Option.mem_def, Option.some_inj] at hx
      subst hx
      have hcast : ((ws.length - 1 : Nat) : ℚ) + 1 = (ws.length : ℚ) := by
        push_cast [Nat.cast_sub hlen1]
        ring
      have hne0 : ((ws.length : ℚ)) ≠ 0 := Nat.cast_ne_zero.mpr (by omega)
      simp only [hcast]
      rw [div_self hne0, one_mul]

/-- Witness for C5 at three TTS words against two anchors. -/
theorem c5_witness :
    (VideoGen.alignTtsTextWithWhisperTiming [chars "a", chars "b", chars "c"]
        [⟨chars "x", 0, 1⟩, ⟨chars "y", 1, 2⟩]).length = 3 ∧
    (∀ (i : Nat) (w : List Char), [chars "a", chars "b", chars "c"].get? i = some w →
      (VideoGen.alignTtsTextWithWhisperTiming [chars "a", chars "b", chars "c"]
          [⟨chars "x", 0, 1⟩, ⟨chars "y", 1, 2⟩]).get? i =
        some ⟨w, ((i : ℚ) / ((3 : Nat) : ℚ)) * 2, (((i : ℚ) + 1) / ((3 : Nat) : ℚ)) * 2⟩) ∧
    List.Chain' (fun x y => x.stop = y.start)
      (VideoGen.alignTtsTextWithWhisperTiming [chars "a", chars "b", chars "c"]
        [⟨chars "x", 0, 1⟩, ⟨chars "y", 1, 2⟩]) ∧
    (∀ x ∈ (VideoGen.alignTtsTextWithWhisperTiming [chars "a", chars "b", chars "c"]
        [⟨chars "x", 0, 1⟩, ⟨chars "y", 1, 2⟩]).head?, x.start = 0) ∧
    (∀ x ∈ (VideoGen.alignTtsTextWithWhisperTiming [chars "a", chars "b", chars "c"]
        [⟨chars "x", 0, 1⟩, ⟨chars "y", 1, 2⟩]).getLast?, x.stop = 2) := by
  have h := c5_proportional_retiming [chars "a", chars "b", chars "c"]
    [⟨chars "x", 0, 1⟩, ⟨chars "y", 1, 2⟩] ⟨chars "y", 1, 2⟩ rfl (by decide)
  simpa using h

/-! ### Claim C1 -/

namespace VideoGen

theorem segTimings_length (s e wd : ℚ) :
    ∀ (j : Nat) (ws : List (List Char)), (segTimings s e wd j ws).length = ws.length := by
  intro j ws
  induction ws generalizing j with
  | nil => simp [segTimings]
  | cons w ws ih => simp [segTimings, ih]

theorem applyAux_length :
    ∀ (segs : List Seg) (ws : List (List Char)), segs ≠ [] →
      (applyAux ws segs).length = ws.length := by
  intro segs
  induction segs with
  | nil => intro ws h; exact absurd rfl h
  | cons s rest ih =>
    intro ws _
    simp only [applyAux]
    cases hrest : rest.isEmpty with
    | true =>
      simp [List.take_length, List.drop_length, segTimings_length]
    | false =>
      have hrest' : rest ≠ [] := by
        intro h; subst h; simp at hrest
      cases ws with
      | nil => simp [segTimings]
      | cons w ws' =>
        have hm1 : 1 ≤ max 1 (min (pySplit s.text).length (w :: ws').length) :=
          Nat.le_max_left _ _
        have hmL : max 1 (min (pySplit s.text).length (w :: ws').length) ≤
            (w :: ws').length := by
          have h1 : (1 : Nat) ≤ (w :: ws').length := by simp
          have h2 : min (pySplit s.text).length (w :: ws').length ≤ (w :: ws').length :=
            Nat.min_le_right _ _
          exact max_le h1 h2
        cases hdrop :
            ((w :: ws').drop (max 1 (min (pySplit s.text).length (w :: ws').length))).isEmpty with
        | true =>
          have hLm : (w :: ws').length -
              max 1 (min (pySplit s.text).length (w :: ws').length) = 0 := by
            have hnil := List.isEmpty_iff.mp hdrop
            have hlen := congrArg List.length hnil
            simpa [List.length_drop] using hlen
          simp only [Bool.false_eq_true, if_false, hdrop, if_true,
            List.length_append, segTimings_length, List.length_take, List.length_nil]
          omega
        | false =>
          have hdne :
              (w :: ws').drop (max 1 (min (pySplit s.text).length (w :: ws').length)) ≠ [] := by
            intro h; rw [h] at hdrop; simp at hdrop
          simp only [Bool.false_eq_true, if_false, hdrop,
            List.length_append, segTimings_length, List.length_take,
            ih _ hrest', List.length_drop]
          omega

theorem genTimings_length (scale : ℚ) :
    ∀ (cur : ℚ) (l : List (List Char × ℚ × ℚ)), (genTimings scale cur l).length = l.length := by
  intro cur l
  induction l generalizing cur with
  | nil => simp [genTimings]
  | cons x l ih => simp [genTimings, ih]

theorem annotateWords_length (t : List Char) :
    ∀ (l : List (Nat × List Char)), (annotateWords t l).length = l.length := by
  intro l
  induction l with
  | nil => simp [annotateWords]
  | cons x l ih => simp [annotateWords, ih]

end VideoGen

/-- C1 (amended): the anchor-based reconciliation paths return exactly one
timing entry per whitespace-separated TTS word — the segment path for any
non-empty segment list, and the word-anchor path for every anchor list
unconditionally — while the pure-estimation path returns exactly one entry
per regex word token (`\b\w+(?:'\w+)?\b`), a count that can differ from
`len(text.split())`. -/
theorem c1_coverage_amended :
    (∀ (ttsText : List Char) (segments : List VideoGen.Seg), segments ≠ [] →
        (VideoGen.applyTtsTextToSegments ttsText segments).length =
          (pySplit ttsText).length) ∧
      (∀ (ttsWords : List (List Char)) (anchors : List VideoGen.WordT),
        (VideoGen.alignTtsTextWithWhisperTiming ttsWords anchors).length =
          ttsWords.length) ∧
      (∀ (text : List Char) (audioDuration : ℚ),
        (VideoGen.calculateWordTimingsEstimated text audioDuration).length =
          (VideoGen.extractWords text).length) := by
  refine ⟨?_, ?_, ?_⟩
  · intro ttsText segments hne
    simp only [VideoGen.applyTtsTextToSegments]
    have hsegs : segments.isEmpty = false := by
      cases segments with
      | nil => exact absurd rfl hne
      | cons s rest => rfl
    rw [hsegs]
    simp only [Bool.false_eq_true, if_false]
    cases hwords : (pySplit ttsText).isEmpty with
    | true =>
      simp only [if_true, List.length_nil]
      rw [List.isEmpty_iff.mp hwords]
      rfl
    | false =>
      simp only [Bool.false_eq_true, if_false]
      exact VideoGen.applyAux_length segments _ hne
  · intro ttsWords anchors
    simp only [VideoGen.alignTtsTextWithWhisperTiming]
    split
    · rename_i hlen
      rw [List.length_map, List.length_zip, hlen, Nat.min_self, ← hlen]
    · split
      · exact VideoGen.alignNoAnchorsAux_length _ _ _
      · exact VideoGen.alignMismatchAux_length _ _ _ _
  · intro text audioDuration
    simp only [VideoGen.calculateWordTimingsEstimated]
    cases hpairs : (VideoGen.extractWords text).isEmpty with
    | true =>
      simp only [if_true, List.length_nil]
      rw [List.isEmpty_iff.mp hpairs]
      rfl
    | false =>
      simp only [Bool.false_eq_true, if_false]
      rw [VideoGen.genTimings_length, VideoGen.annotateWords_length]

/-- Counterexample to C1 as stated: on the pure-estimation path the input
`"well-known plan"` has two whitespace-separated words but produces three
timing entries (`well`, `known`, `plan`). -/
theorem c1_counterexample :
    (VideoGen.calculateWordTimingsEstimated (chars "well-known plan") 2).length ≠
      (pySplit (chars "well-known plan")).length := by
  decide

/-- Witness for C1 on the segment path with one segment and three words. -/
theorem c1_witness :
    (VideoGen.applyTtsTextToSegments (chars "a b c") [⟨0, 3, chars "hello there"⟩]).length =
      (pySplit (chars "a b c")).length :=
  c1_coverage_amended.1 (chars "a b c") [⟨0, 3, chars "hello there"⟩] (by decide)

/-! ### Claim C10 -/

namespace TextNormalizer

theorem containsSubAux_true (pat full : List Char) :
    ∀ (fuel i0 i : Nat), i0 ≤ i → i + pat.length ≤ full.length →
      List.isPrefixOf pat (full.drop i) = true →
      full.length + 1 - i0 ≤ fuel → containsSubAux pat full fuel i0 = true := by
  intro fuel
  induction fuel with
  | zero => intro i0 i h1 h2 _ h4; omega
  | succ fuel ih =>
    intro i0 i h1 h2 h3 h4
    simp only [containsSubAux]
    rw [if_neg (by omega : ¬ i0 + pat.length > full.length)]
    by_cases he : List.isPrefixOf pat (full.drop i0) = true
    · rw [if_pos he]
    · rw [if_neg he]
      have hne : i0 ≠ i := by
        rintro rfl
        exact he h3
      exact ih (i0 + 1) i (by omega) h2 h3 (by omega)

theorem containsSub_of_wholeWord (key t : List Char) (i : Nat) (hkey : key ≠ [])
    (h : wholeWordAt key t i = true) : containsSub key t = true := by
  have hp : List.isPrefixOf key (t.drop i) = true := by
    simp only [wholeWordAt, Bool.and_eq_true] at h
    exact h.1.1
  have hlen : key.length ≤ (t.drop i).length :=
    (List.isPrefixOf_iff_prefix.mp hp).length_le
  rw [List.length_drop] at hlen
  have hkpos : 0 < key.length := List.length_pos.mpr hkey
  exact containsSubAux_true key t (t.length + 1) 0 i (Nat.zero_le i) (by omega) hp (by omega)

theorem findWBAux_sound (key t : List Char) :
    ∀ (fuel i p : Nat), p ∈ findWBAux key t fuel i → wholeWordAt key t p = true := by
  intro fuel
  induction fuel with
  | zero => intro i p h; simp [findWBAux] at h
  | succ fuel ih =>
    intro i p h
    simp only [findWBAux] at h
    split at h
    · simp at h
    · split at h
      · rename_i hw
        rcases List.mem_cons.mp h with rfl | h
        · exact hw
        · exact ih _ p h
      · exact ih _ p h

theorem findWB_eq_nil (key t : List Char) (hkey : key ≠ [])
    (h : containsSub key t = false) : findWB key t = [] := by
  cases hfw : findWB key t with
  | nil => rfl
  | cons p l =>
    exfalso
    have hp : p ∈ findWBAux key t (t.length + 1) 0 := by
      show p ∈ findWB key t
      rw [hfw]
      exact List.mem_cons_self _ _
    have hw := findWBAux_sound key t (t.length + 1) 0 p hp
    rw [containsSub_of_wholeWord key t p hkey hw] at h
    cases h

theorem findWBAux_ne_nil (key t : List Char) :
    ∀ (fuel i j : Nat), i ≤ j → wholeWordAt key t j = true → j < t.length →
      j - i < fuel → findWBAux key t fuel i ≠ [] := by
  intro fuel
  induction fuel with
  | zero => intro i j h1 _ _ h4; omega
  | succ fuel ih =>
    intro i j h1 h2 h3 h4
    simp only [findWBAux]
    rw [if_neg (by omega : ¬ i ≥ t.length)]
    by_cases hw : wholeWordAt key t i = true
    · rw [if_pos hw]
      simp
    · rw [if_neg hw]
      have hne : i ≠ j := by
        rintro rfl
        exact hw h2
      exact ih (i + 1) j (by omega) h2 h3 (by omega)

theorem findWB_ne_nil (key t : List Char) (h : hasWholeWord key t = true) :
    findWB key t ≠ [] := by
  simp only [hasWholeWord, List.any_eq_true] at h
  obtain ⟨j, hjmem, hj⟩ := h
  have hjlt : j < t.length := List.mem_range.mp hjmem
  exact findWBAux_ne_nil key t (t.length + 1) 0 j (Nat.zero_le j) hj hjlt (by omega)

theorem singleKeyStep_no_match (tt : TransformationType) (kv : List Char × List Char)
    (st : List Char × List TextMapping) (h : findWB kv.1 st.1 = []) :
    singleKeyStep tt kv st = st := by
  simp [singleKeyStep, h]

theorem foldSteps_no_match (tt : TransformationType) :
    ∀ (L : List (List Char × List Char)) (st : List Char × List TextMapping),
      (∀ kv ∈ L, findWB kv.1 st.1 = []) →
      L.foldl (fun s kv => singleKeyStep tt kv s) st = st := by
  intro L
  induction L with
  | nil => intro st _; rfl
  | cons kv L ih =>
    intro st h
    simp only [List.foldl_cons]
    rw [singleKeyStep_no_match tt kv st (h kv (List.mem_cons_self _ _))]
    exact ih st (fun kv' h' => h kv' (List.mem_cons_of_mem _ h'))

end TextNormalizer

/-- C10: abbreviation matching is case-sensitive and whole-word. Every
mapping the pass emits pairs an exact dictionary key with its expansion (so
lowercase occurrences such as `so`/`op` never produce a mapping); a text
containing no dictionary key as a substring passes through unchanged with no
mappings; and a text containing `SO` as an exact-case whole word (and no
other key before or after the `SO` replacement) gets it expanded to
`Significant other`, recorded as an ABBREVIATION mapping. -/
theorem c10_case_sensitive_abbreviations :
    (∀ (t : List Char) (m : TextNormalizer.TextMapping),
        m ∈ (TextNormalizer.transformAbbreviations t).2 →
        m.transformation_type = TextNormalizer.TransformationType.ABBREVIATION ∧
          (m.original_text, m.tts_text) ∈ TextNormalizer.sortedAbbrevs) ∧
      (∀ t : List Char,
        (∀ kv ∈ TextNormalizer.sortedAbbrevs, containsSub kv.1 t = false) →
        TextNormalizer.transformAbbreviations t = (t, [])) ∧
      (∀ t : List Char,
        TextNormalizer.hasWholeWord (chars "SO") t = true →
        (∀ kv ∈ TextNormalizer.sortedAbbrevs, kv.1 ≠ chars "SO" →
          containsSub kv.1 t = false ∧
            containsSub kv.1
              (TextNormalizer.singleKeyStep TextNormalizer.TransformationType.ABBREVIATION
                (chars "SO", chars "Significant other") (t, [])).1 = false) →
        ∃ m ∈ (TextNormalizer.transformAbbreviations t).2,
          m.original_text = chars "SO" ∧ m.tts_text = chars "Significant other") := by
  have hkeysnn : ∀ kv ∈ TextNormalizer.sortedAbbrevs, kv.1 ≠ ([] : List Char) := by decide
  refine ⟨?_, ?_, ?_⟩
  · intro t m hm
    rcases TextNormalizer.foldSteps_mem _ _ _ m hm with h | ⟨kv, hkv, p, rfl⟩
    · simp at h
    · exact ⟨rfl, by simpa [TextNormalizer.mkMapping] using hkv⟩
  · intro t h
    refine TextNormalizer.foldSteps_no_match _ _ _ ?_
    intro kv hkv
    exact TextNormalizer.findWB_eq_nil kv.1 t (hkeysnn kv hkv) (h kv hkv)
  · intro t hww hother
    have hsplit : TextNormalizer.sortedAbbrevs =
        TextNormalizer.sortedAbbrevs.take 22 ++
          (chars "SO", chars "Significant other") :: TextNormalizer.sortedAbbrevs.drop 23 := by
      decide
    have hkeys_ne : ∀ kv ∈ TextNormalizer.sortedAbbrevs.take 22, kv.1 ≠ chars "SO" := by decide
    have hkeys_ne2 : ∀ kv ∈ TextNormalizer.sortedAbbrevs.drop 23, kv.1 ≠ chars "SO" := by decide
    have hpre : ∀ kv ∈ TextNormalizer.sortedAbbrevs.take 22, TextNormalizer.findWB kv.1 t = [] := by
      intro kv hkv
      have hmem := List.mem_of_mem_take hkv
      exact TextNormalizer.findWB_eq_nil kv.1 t (hkeysnn kv hmem)
        (hother kv hmem (hkeys_ne kv hkv)).1
    have hpost : ∀ kv ∈ TextNormalizer.sortedAbbrevs.drop 23,
        TextNormalizer.findWB kv.1
          (TextNormalizer.singleKeyStep TextNormalizer.TransformationType.ABBREVIATION
            (chars "SO", chars "Significant other") (t, [])).1 = [] := by
      intro kv hkv
      have hmem := List.mem_of_mem_drop hkv
      exact TextNormalizer.findWB_eq_nil kv.1 _ (hkeysnn kv hmem)
        (hother kv hmem (hkeys_ne2 kv hkv)).2
    have hinner : (TextNormalizer.sortedAbbrevs.take 22).foldl
        (fun s kv => TextNormalizer.singleKeyStep
          TextNormalizer.TransformationType.ABBREVIATION kv s) (t, []) = (t, []) :=
      TextNormalizer.foldSteps_no_match _ _ _ hpre
    have houter : (TextNormalizer.sortedAbbrevs.drop 23).foldl
        (fun s kv => TextNormalizer.singleKeyStep
          TextNormalizer.TransformationType.ABBREVIATION kv s)
        (TextNormalizer.singleKeyStep TextNormalizer.TransformationType.ABBREVIATION
          (chars "SO", chars "Significant other") (t, [])) =
        TextNormalizer.singleKeyStep TextNormalizer.TransformationType.ABBREVIATION
          (chars "SO", chars "Significant other") (t, []) :=
      TextNormalizer.foldSteps_no_match _ _ _ hpost
    rw [TextNormalizer.transformAbbreviations, hsplit, List.foldl_append, hinner,
      List.foldl_cons, houter]
    have hms : TextNormalizer.findWB (chars "SO") t ≠ [] :=
      TextNormalizer.findWB_ne_nil _ t hww
    have hms2 : (TextNormalizer.singleKeyStep TextNormalizer.TransformationType.ABBREVIATION
        (chars "SO", chars "Significant other") (t, [])).2 ≠ [] := by
      simp only [TextNormalizer.singleKeyStep, List.nil_append]
      intro hcon
      rw [List.map_eq_nil_iff, List.reverse_eq_nil_iff] at hcon
      exact hms hcon
    obtain ⟨m, hm⟩ := List.exists_mem_of_ne_nil _ hms2
    refine ⟨m, hm, ?_⟩
    have hmm : m ∈ (TextNormalizer.findWB (chars "SO") t).reverse.map
        (fun p => TextNormalizer.mkMapping TextNormalizer.TransformationType.ABBREVIATION
          (p, chars "SO", chars "Significant other")) := by
      simpa [TextNormalizer.singleKeyStep] using hm
    rcases List.mem_map.mp hmm with ⟨p, _, rfl⟩
    exact ⟨rfl, rfl⟩

/-- Witness for C10: lowercase text passes through untouched; an exact-case
whole-word `SO` is expanded. -/
theorem c10_witness :
    TextNormalizer.transformAbbreviations (chars "so op said so") =
        (chars "so op said so", []) ∧
      ∃ m ∈ (TextNormalizer.transformAbbreviations (chars "My SO left")).2,
        m.original_text = chars "SO" ∧ m.tts_text = chars "Significant other" :=
  ⟨c10_case_sensitive_abbreviations.2.1 _ (by decide),
   c10_case_sensitive_abbreviations.2.2 _ (by decide) (by decide)⟩

/-! ### Claim C4 -/

namespace VideoGen

theorem estimateSyllables_pos (w : List Char) : 0 < estimateSyllables w := by
  simp only [estimateSyllables]
  exact Nat.lt_of_lt_of_le Nat.zero_lt_one (Nat.le_max_left _ _)

theorem wordDurationUnits_pos (w : List Char) : 0 < wordDurationUnits w := by
  simp only [wordDurationUnits]
  have hs : (0 : ℚ) < (estimateSyllables w : ℚ) := by
    exact_mod_cast estimateSyllables_pos w
  have hb : (0 : ℚ) < (estimateSyllables w : ℚ) * 0.15 := by positivity
  have hc : (0 : ℚ) < 1 + (countRuns isConsonantCl 2 (w.map Char.toLower) : ℚ) * 0.1 +
      (countVowelComplex (w.map Char.toLower) : ℚ) * 0.1 := by positivity
  split
  · exact mul_pos (mul_pos hb hc) (by norm_num)
  · split
    · exact mul_pos (mul_pos hb hc) (by norm_num)
    · exact mul_pos (mul_pos hb hc) (by norm_num)

theorem pauseValue_nonneg (b : List Char) : 0 ≤ pauseValue b := by
  simp only [pauseValue]
  split
  · norm_num
  · split
    · norm_num
    · split <;> norm_num

theorem annotateWords_facts (t : List Char) :
    ∀ (l : List (Nat × List Char)), ∀ x ∈ annotateWords t l, 0 < x.2.1 ∧ 0 ≤ x.2.2 := by
  intro l
  induction l with
  | nil => intro x hx; simp [annotateWords] at hx
  | cons p rest ih =>
    intro x hx
    simp only [annotateWords, List.mem_cons] at hx
    rcases hx with h | h
    · subst h
      exact ⟨wordDurationUnits_pos _, pauseValue_nonneg _⟩
    · exact ih x h

/-- Sum carried into the last emitted `end`: every word's duration plus every
pause except the one after the final word. -/
def tailWeight : List (List Char × ℚ × ℚ) → ℚ
  | [] => 0
  | [x] => x.2.1
  | x :: y :: rest => x.2.1 + x.2.2 + tailWeight (y :: rest)

theorem genTimings_getLast_stop (scale : ℚ) :
    ∀ (l : List (List Char × ℚ × ℚ)) (cur : ℚ) (x : WordT),
      (genTimings scale cur l).getLast? = some x → x.stop = cur + scale * tailWeight l := by
  intro l
  induction l with
  | nil => intro cur x h; simp [genTimings] at h
  | cons p rest ih =>
    intro cur x h
    obtain ⟨w, d, pz⟩ := p
    cases rest with
    | nil =>
      simp only [genTimings, List.getLast?_singleton, Option.some_inj] at h
      subst h
      simp only [tailWeight]
      ring
    | cons q rest' =>
      simp only [genTimings] at h ⊢
      rw [List.getLast?_cons_cons] at h
      have := ih (cur + d * scale + pz * scale) x (by
        simpa [genTimings] using h)
      rw [this, tailWeight]
      ring

theorem tailWeight_le (l : List (List Char × ℚ × ℚ)) :
    (∀ x ∈ l, 0 ≤ x.2.2) →
      tailWeight l ≤ (l.map fun a => a.2.1).sum + (l.map fun a => a.2.2).sum := by
  induction l with
  | nil => intro _; simp [tailWeight]
  | cons p rest ih =>
    intro hp
    cases rest with
    | nil =>
      have h0 : 0 ≤ p.2.2 := hp p (List.mem_cons_self _ _)
      simp only [tailWeight, List.map_cons, List.map_nil, List.sum_cons, List.sum_nil]
      linarith
    | cons q rest' =>
      have := ih (fun x hx => hp x (List.mem_cons_of_mem _ hx))
      simp only [tailWeight, List.map_cons, List.sum_cons] at this ⊢
      linarith

theorem zipMap_getLast_stop :
    ∀ (ws : List (List Char)) (as_ : List WordT) (a x : WordT),
      ws.length = as_.length → as_.getLast? = some a →
      ((ws.zip as_).map (fun p => (⟨p.1, p.2.start, p.2.stop⟩ : WordT))).getLast? = some x →
      x.stop = a.stop := by
  intro ws
  induction ws with
  | nil =>
    intro as_ a x h hl hx
    cases as_ with
    | nil => simp at hl
    | cons b bs => simp at h
  | cons w ws ih =>
    intro as_ a x h hl hx
    cases as_ with
    | nil => simp at h
    | cons b bs =>
      simp only [List.length_cons, Nat.succ.injEq] at h
      cases ws with
      | nil =>
        cases bs with
        | nil =>
          simp only [List.zip_cons_cons, List.zip_nil_left, List.map_cons, List.map_nil,
            List.getLast?_singleton, Option.some_inj] at hx
          simp only [List.getLast?_singleton, Option.some_inj] at hl
          subst hx
          subst hl
          rfl
        | cons b2 bs' => simp at h
      | cons w2 ws' =>
        cases bs with
        | nil => simp at h
        | cons b2 bs' =>
          simp only [List.zip_cons_cons, List.map_cons] at hx
          rw [List.getLast?_cons_cons] at hx hl
          exact ih (b2 :: bs') a x (by simpa using h) hl (by simpa using hx)

theorem alignMismatchAux_getLast_stop (T : ℚ) (n : Nat) :
    ∀ (ws : List (List Char)) (j : Nat) (x : WordT), j + ws.length = n → ws ≠ [] →
      (alignMismatchAux T n j ws).getLast? = some x → x.stop = T := by
  intro ws
  induction ws with
  | nil => intro j x _ hne _; exact absurd rfl hne
  | cons w ws ih =>
    intro j x hn _ h
    cases ws with
    | nil =>
      simp only [alignMismatchAux, List.getLast?_singleton, Option.some_inj] at h
      subst h
      have hj : j = n - 1 := by
        simp only [List.length_cons, List.length_nil] at hn
        omega
      simp [hj]
    | cons w2 ws' =>
      simp only [alignMismatchAux] at h
      rw [List.getLast?_cons_cons] at h
      have hn' : j + 1 + (w2 :: ws').length = n := by
        simp only [List.length_cons] at hn ⊢
        omega
      exact ih (j + 1) x hn' (by simp) (by simpa [alignMismatchAux] using h)

end VideoGen

/-! ### Claim C2 -/

namespace VideoGen

theorem segTimings_head_start (s e wd : ℚ) (j : Nat) (w : List Char) (ws : List (List Char)) :
    (segTimings s e wd j (w :: ws)).head? =
      some ⟨w, s + (j : ℚ) * wd, min (s + (j : ℚ) * wd + wd) e⟩ := rfl

theorem segTimings_chain (s e wd : ℚ) :
    ∀ (j : Nat) (ws : List (List Char)),
      List.Chain' (fun x y : WordT => x.stop ≤ y.start) (segTimings s e wd j ws) := by
  intro j ws
  induction ws generalizing j with
  | nil => simp [segTimings]
  | cons w ws ih =>
    rw [segTimings, List.chain'_cons']
    refine ⟨?_, ih (j + 1)⟩
    intro y hy
    cases ws with
    | nil => simp [segTimings] at hy
    | cons w2 ws2 =>
      rw [segTimings_head_start] at hy
      simp only [Option.mem_def, Option.some_inj] at hy
      subst hy
      refine le_trans (min_le_left _ _) ?_
      push_cast
      ring_nf
      exact le_refl _

theorem segTimings_stop_le (s e wd : ℚ) :
    ∀ (j : Nat) (ws : List (List Char)) (x : WordT),
      x ∈ segTimings s e wd j ws → x.stop ≤ e := by
  intro j ws
  induction ws generalizing j with
  | nil => intro x hx; simp [segTimings] at hx
  | cons w ws ih =>
    intro x hx
    rw [segTimings] at hx
    rcases List.mem_cons.mp hx with h | h
    · subst h
      exact min_le_right _ _
    · exact ih (j + 1) x h

theorem mem_of_getLast?_mem {α : Type} {l : List α} {x : α} (hx : x ∈ l.getLast?) : x ∈ l := by
  rcases List.mem_getLast?_eq_getLast hx with ⟨h, rfl⟩
  exact List.getLast_mem h

theorem applyAux_head_start :
    ∀ (s : Seg) (rest : List Seg) (ws : List (List Char)),
      ∀ x ∈ (applyAux ws (s :: rest)).head?, x.start = s.start := by
  intro s rest ws x hx
  simp only [applyAux] at hx
  cases ws with
  | nil =>
    simp [segTimings] at hx
  | cons w ws' =>
    set m := if rest.isEmpty = true then (w :: ws').length
        else max 1 (min (pySplit s.text).length (w :: ws').length) with hmdef
    have hm : 1 ≤ m := by
      rw [hmdef]
      split
      · simp
      · exact Nat.le_max_left _ _
    obtain ⟨k, hk⟩ : ∃ k, m = k + 1 := ⟨m - 1, by omega⟩
    rw [hk] at hx
    rw [List.take_succ_cons] at hx
    rw [segTimings] at hx
    simp only [List.cons_append, List.head?_cons, Option.mem_def, Option.some_inj] at hx
    subst hx
    norm_num

theorem applyAux_chain :
    ∀ (segs : List Seg) (ws : List (List Char)),
      List.Chain' (fun s t : Seg => s.stop ≤ t.start) segs →
      List.Chain' (fun x y : WordT => x.stop ≤ y.start) (applyAux ws segs) := by
  intro segs
  induction segs with
  | nil => intro ws _; simp [applyAux]
  | cons s rest ih =>
    intro ws hch
    simp only [applyAux]
    set m := if rest.isEmpty = true then ws.length
        else max 1 (min (pySplit s.text).length ws.length) with hmdef
    refine List.chain'_append.mpr ⟨segTimings_chain _ _ _ _ _, ?_, ?_⟩
    · split
      · exact List.chain'_nil
      · exact ih _ hch.tail
    · intro x hx y hy
      have hxe : x.stop ≤ s.stop :=
        segTimings_stop_le _ _ _ _ _ x (mem_of_getLast?_mem hx)
      split at hy
      · simp at hy
      · cases rest with
        | nil => simp [applyAux] at hy
        | cons t rest2 =>
          have hy' := applyAux_head_start t rest2 _ y hy
          have hst : s.stop ≤ t.start := (List.chain'_cons.mp hch).1
          rw [hy']
          exact le_trans hxe hst

end VideoGen

/-! ### Claim C4 (segment-path lemmas and the amended theorem) -/

namespace VideoGen

theorem segs_head_le_getLast_stop :
    ∀ (rest : List Seg) (s e : Seg),
      List.Chain' (fun a b : Seg => a.stop ≤ b.start) (s :: rest) →
      (∀ u ∈ s :: rest, u.start ≤ u.stop) →
      (s :: rest).getLast? = some e → s.stop ≤ e.stop := by
  intro rest
  induction rest with
  | nil =>
    intro s e _ _ hlast
    simp only [List.getLast?_singleton, Option.some_inj] at hlast
    subst hlast
    exact le_refl _
  | cons t rest2 ih =>
    intro s e hch hwf hlast
    rw [List.getLast?_cons_cons] at hlast
    have h1 : s.stop ≤ t.start := (List.chain'_cons.mp hch).1
    have h2 : t.start ≤ t.stop := hwf t (List.mem_cons_of_mem s (List.mem_cons_self t rest2))
    have h3 : t.stop ≤ e.stop :=
      ih t e (List.chain'_cons.mp hch).2 (fun u hu => hwf u (List.mem_cons_of_mem s hu)) hlast
    linarith

theorem applyAux_stop_le :
    ∀ (segs : List Seg) (ws : List (List Char)) (e : Seg),
      List.Chain' (fun a b : Seg => a.stop ≤ b.start) segs →
      (∀ u ∈ segs, u.start ≤ u.stop) →
      segs.getLast? = some e →
      ∀ x ∈ applyAux ws segs, x.stop ≤ e.stop := by
  intro segs
  induction segs with
  | nil => intro ws e _ _ hlast; simp at hlast
  | cons s rest ih =>
    intro ws e hch hwf hlast x hx
    simp only [applyAux] at hx
    set m := if rest.isEmpty = true then ws.length
        else max 1 (min (pySplit s.text).length ws.length) with hmdef
    rcases List.mem_append.mp hx with hx | hx
    · have h1 : x.stop ≤ s.stop := segTimings_stop_le _ _ _ _ _ x hx
      have h2 : s.stop ≤ e.stop := segs_head_le_getLast_stop rest s e hch hwf hlast
      linarith
    · split at hx
      · simp at hx
      · cases rest with
        | nil => simp [applyAux] at hx
        | cons t rest2 =>
          rw [List.getLast?_cons_cons] at hlast
          exact ih _ e (List.chain'_cons.mp hch).2
            (fun u hu => hwf u (List.mem_cons_of_mem s hu)) hlast x hx

end VideoGen

/-- C4 (amended): the duration bound holds on the pure-estimation path (the
last end never exceeds a positive audio duration) and on the whisper
alignment path (the last end never exceeds the last anchor's end, its
total-duration baseline) unconditionally; on the segment-anchor path it
holds provided the segments are ordered and well-formed (each start at most
its end, each end at most the next start), in which case every emitted
entry — in particular the last — ends by the final segment's end, the
`total_duration` the code reads off `segments[-1][1]`. With malformed
segments the segment path can overshoot that duration. -/
theorem c4_duration_bound :
    (∀ (text : List Char) (audioDuration : ℚ) (x : VideoGen.WordT), 0 < audioDuration →
        (VideoGen.calculateWordTimingsEstimated text audioDuration).getLast? = some x →
        x.stop ≤ audioDuration) ∧
      (∀ (ttsWords : List (List Char)) (anchors : List VideoGen.WordT)
        (a x : VideoGen.WordT), anchors.getLast? = some a →
        (VideoGen.alignTtsTextWithWhisperTiming ttsWords anchors).getLast? = some x →
        x.stop ≤ a.stop) ∧
      (∀ (ttsText : List Char) (segments : List VideoGen.Seg) (e : VideoGen.Seg),
        List.Chain' (fun a b : VideoGen.Seg => a.stop ≤ b.start) segments →
        (∀ u ∈ segments, u.start ≤ u.stop) →
        segments.getLast? = some e →
        ∀ x ∈ VideoGen.applyTtsTextToSegments ttsText segments, x.stop ≤ e.stop) := by
  refine ⟨?_, ?_, ?_⟩
  · intro text D x hD hlast
    simp only [VideoGen.calculateWordTimingsEstimated] at hlast
    split at hlast
    · simp at hlast
    · rename_i hpairs
      have hpne : VideoGen.extractWords text ≠ [] := by
        intro h
        rw [h] at hpairs
        simp at hpairs
    -- the annotated list is nonempty, its durations positive, pauses nonneg
      have hlne : VideoGen.annotateWords text (VideoGen.extractWords text) ≠ [] := by
        intro h
        have := congrArg List.length h
        rw [VideoGen.annotateWords_length] at this
        exact hpne (List.length_eq_zero.mp (by simpa using this))
      have hfacts := VideoGen.annotateWords_facts text (VideoGen.extractWords text)
      have hdpos : ∀ q ∈ (VideoGen.annotateWords text (VideoGen.extractWords text)).map
          (fun a => a.2.1), 0 < q := by
        intro q hq
        rcases List.mem_map.mp hq with ⟨a, ha, rfl⟩
        exact (hfacts a ha).1
      have hppos : ∀ q ∈ (VideoGen.annotateWords text (VideoGen.extractWords text)).map
          (fun a => a.2.2), 0 ≤ q := by
        intro q hq
        rcases List.mem_map.mp hq with ⟨a, ha, rfl⟩
        exact (hfacts a ha).2
      have hT : 0 < ((VideoGen.annotateWords text (VideoGen.extractWords text)).map
            (fun a => a.2.1)).sum +
          ((VideoGen.annotateWords text (VideoGen.extractWords text)).map
            (fun a => a.2.2)).sum := by
        have h1 : 0 < ((VideoGen.annotateWords text (VideoGen.extractWords text)).map
            (fun a => a.2.1)).sum :=
          List.sum_pos _ hdpos (by
            intro h
            exact hlne (List.map_eq_nil.mp h))
        have h2 : 0 ≤ ((VideoGen.annotateWords text (VideoGen.extractWords text)).map
            (fun a => a.2.2)).sum := List.sum_nonneg hppos
        linarith
      rw [if_pos hT] at hlast
      have hstop := VideoGen.genTimings_getLast_stop _ _ _ _ hlast
      rw [hstop]
      have htw := VideoGen.tailWeight_le
        (VideoGen.annotateWords text (VideoGen.extractWords text))
        (fun q hq => (hfacts q hq).2)
      have hscale : 0 ≤ D / (((VideoGen.annotateWords text (VideoGen.extractWords text)).map
            (fun a => a.2.1)).sum +
          ((VideoGen.annotateWords text (VideoGen.extractWords text)).map
            (fun a => a.2.2)).sum) := by positivity
      calc 0 + D / _ * VideoGen.tailWeight _ ≤
          D / (((VideoGen.annotateWords text (VideoGen.extractWords text)).map
                (fun a => a.2.1)).sum +
              ((VideoGen.annotateWords text (VideoGen.extractWords text)).map
                (fun a => a.2.2)).sum) *
            (((VideoGen.annotateWords text (VideoGen.extractWords text)).map
                (fun a => a.2.1)).sum +
              ((VideoGen.annotateWords text (VideoGen.extractWords text)).map
                (fun a => a.2.2)).sum) := by
            rw [zero_add]
            exact mul_le_mul_of_nonneg_left htw hscale
        _ = D := div_mul_cancel₀ D (ne_of_gt hT)
  · intro ws anchors a x hlasta hlast
    have h0 : ¬ anchors.length = 0 := by
      intro h
      rw [List.length_eq_zero] at h
      subst h
      simp at hlasta
    rw [VideoGen.alignTtsTextWithWhisperTiming] at hlast
    by_cases hlen : ws.length = anchors.length
    · rw [if_pos hlen] at hlast
      exact le_of_eq (VideoGen.zipMap_getLast_stop ws anchors a x hlen hlasta hlast)
    · rw [if_neg hlen, if_neg h0] at hlast
      simp only [hlasta] at hlast
      have hwsne : ws ≠ [] := by
        intro h
        subst h
        simp [VideoGen.alignMismatchAux] at hlast
      exact le_of_eq
        (VideoGen.alignMismatchAux_getLast_stop a.stop ws.length ws 0 x (by omega) hwsne hlast)
  · intro ttsText segments e hch hwf hlast x hx
    simp only [VideoGen.applyTtsTextToSegments] at hx
    split at hx
    · simp at hx
    · split at hx
      · simp at hx
      · exact VideoGen.applyAux_stop_le segments _ e hch hwf hlast x hx

/-- Counterexample to C4 as stated: on the segment path with malformed
segments `[(0,5), (1,2)]` and the single word `x`, the emitted timing ends
at 5, exceeding the code's own `total_duration = segments[-1][1] = 2` by a
full 3 seconds — far beyond any small epsilon. -/
theorem c4_counterexample :
    VideoGen.applyTtsTextToSegments (chars "x")
        [⟨0, 5, chars "a"⟩, ⟨1, 2, chars "b"⟩] = [⟨chars "x", 0, 5⟩] ∧
      ∀ x ∈ (VideoGen.applyTtsTextToSegments (chars "x")
          [⟨0, 5, chars "a"⟩, ⟨1, 2, chars "b"⟩]).getLast?, (2 : ℚ) + 1 ≤ x.stop := by
  have heval : VideoGen.applyTtsTextToSegments (chars "x")
      [⟨0, 5, chars "a"⟩, ⟨1, 2, chars "b"⟩] = [⟨chars "x", 0, 5⟩] := by
    have h1 : pySplit (chars "x") = [chars "x"] := by decide
    have h2 : pySplit (chars "a") = [chars "a"] := by decide
    rw [VideoGen.applyTtsTextToSegments]
    norm_num [h1, h2, VideoGen.applyAux, VideoGen.segTimings]
    decide
  refine ⟨heval, ?_⟩
  rw [heval]
  intro x hx
  simp only [List.getLast?_singleton, Option.mem_def, Option.some_inj] at hx
  subst hx
  norm_num

/-- Witness for C4 on all three paths at concrete inputs. -/
theorem c4_witness :
    (∀ x : VideoGen.WordT,
        (VideoGen.calculateWordTimingsEstimated (chars "hey") 2).getLast? = some x →
        x.stop ≤ 2) ∧
      (∀ x : VideoGen.WordT,
        (VideoGen.alignTtsTextWithWhisperTiming [chars "a"]
            [⟨chars "x", 0, 1⟩]).getLast? = some x →
        x.stop ≤ (1 : ℚ)) ∧
      (∀ x ∈ VideoGen.applyTtsTextToSegments (chars "a b")
          [⟨0, 1, chars "hello"⟩, ⟨2, 3, chars "world"⟩], x.stop ≤ (3 : ℚ)) :=
  ⟨fun x hx => c4_duration_bound.1 (chars "hey") 2 x (by norm_num) hx,
   fun x hx => c4_duration_bound.2.1 [chars "a"] [⟨chars "x", 0, 1⟩] ⟨chars "x", 0, 1⟩ x rfl hx,
   c4_duration_bound.2.2 (chars "a b") [⟨0, 1, chars "hello"⟩, ⟨2, 3, chars "world"⟩]
     ⟨2, 3, chars "world"⟩
     (List.chain'_cons.mpr ⟨by norm_num, List.chain'_singleton _⟩)
     (by
       intro u hu
       rcases List.mem_cons.mp hu with rfl | hu
       · norm_num
       · rcases List.mem_cons.mp hu with rfl | hu
         · norm_num
         · simp at hu)
     rfl⟩

namespace WhisperS2T

theorem estimateAux_head_start (se tw sd : ℚ) :
    ∀ (cur : ℚ) (l : List (List Char × ℚ)),
      ∀ x ∈ (estimateAux se tw sd cur l).head?, x.start = cur := by
  intro cur l x hx
  cases l with
  | nil => simp [estimateAux] at hx
  | cons p rest =>
    obtain ⟨w, wt⟩ := p
    simp only [estimateAux, List.head?_cons, Option.mem_def, Option.some_inj] at hx
    subst hx
    rfl

theorem estimateAux_chain (se tw sd : ℚ) :
    ∀ (l : List (List Char × ℚ)) (cur : ℚ),
      List.Chain' (fun x y : S2TTiming => x.stop ≤ y.start) (estimateAux se tw sd cur l) := by
  intro l
  induction l with
  | nil => intro cur; simp [estimateAux]
  | cons p rest ih =>
    intro cur
    obtain ⟨w, wt⟩ := p
    simp only [estimateAux]
    set d := if cur + max ((wt / tw) * sd) 0.1 > se then se - cur
        else max ((wt / tw) * sd) 0.1 with hddef
    rw [List.chain'_cons']
    constructor
    · intro y hy
      split at hy
      · simp at hy
      · have := estimateAux_head_start se tw sd _ rest y hy
        rw [this]
    · split
      · exact List.chain'_nil
      · exact ih _

end WhisperS2T

/-- Evaluation of the segment path on two overlapping segments. -/
theorem overlapSegsEval :
    VideoGen.applyTtsTextToSegments (chars "x y") [⟨0, 2, chars "a"⟩, ⟨1, 3, chars "b"⟩] =
      [⟨chars "x", 0, 2⟩, ⟨chars "y", 1, 3⟩] := by
  have h1 : pySplit (chars "x y") = [chars "x", chars "y"] := by decide
  have h2 : pySplit (chars "a") = [chars "a"] := by decide
  rw [VideoGen.applyTtsTextToSegments]
  norm_num [h1, h2, VideoGen.applyAux, VideoGen.segTimings]
  exact ⟨by decide, by decide⟩

/-- C2 (amended): provided the input segments are ordered and non-overlapping
(each segment's end at most the next segment's start), the segment
reconciliation path emits timings where each entry's start is at least the
previous entry's end; the natural-timing estimator satisfies the same
adjacency property unconditionally (each start equals the previous end). -/
theorem c2_monotonicity_amended :
    (∀ (ttsText : List Char) (segments : List VideoGen.Seg),
        List.Chain' (fun s t : VideoGen.Seg => s.stop ≤ t.start) segments →
        List.Chain' (fun x y : VideoGen.WordT => x.stop ≤ y.start)
          (VideoGen.applyTtsTextToSegments ttsText segments)) ∧
      (∀ (words : List (List Char)) (segStart segEnd : ℚ),
        List.Chain' (fun x y : WhisperS2T.S2TTiming => x.stop ≤ y.start)
          (WhisperS2T.estimateNaturalWordTiming words segStart segEnd)) := by
  constructor
  · intro ttsText segments hch
    simp only [VideoGen.applyTtsTextToSegments]
    split
    · exact List.chain'_nil
    · split
      · exact List.chain'_nil
      · exact VideoGen.applyAux_chain segments _ hch
  · intro words segStart segEnd
    simp only [WhisperS2T.estimateNaturalWordTiming]
    split
    · exact List.chain'_nil
    · exact WhisperS2T.estimateAux_chain _ _ _ _ _

/-- Counterexample to C2 as stated: with overlapping input segments the
segment path emits `(x, 0, 2)` then `(y, 1, 3)`, whose second start precedes
the first end. -/
theorem c2_counterexample :
    ¬ List.Chain' (fun x y : VideoGen.WordT => x.stop ≤ y.start)
      (VideoGen.applyTtsTextToSegments (chars "x y")
        [⟨0, 2, chars "a"⟩, ⟨1, 3, chars "b"⟩]) := by
  rw [overlapSegsEval]
  intro h
  have h01 := (List.chain'_cons.mp h).1
  norm_num at h01

/-- Witness for C2 on ordered segments. -/
theorem c2_witness :
    List.Chain' (fun x y : VideoGen.WordT => x.stop ≤ y.start)
      (VideoGen.applyTtsTextToSegments (chars "x y")
        [⟨0, 1, chars "a"⟩, ⟨2, 3, chars "b"⟩]) :=
  c2_monotonicity_amended.1 (chars "x y") [⟨0, 1, chars "a"⟩, ⟨2, 3, chars "b"⟩]
    (List.chain'_cons.mpr ⟨by norm_num, List.chain'_singleton _⟩)

/-! ### Claim C7 -/

namespace WhisperS2T

theorem estimateAux_nonlast_duration (se tw sd : ℚ) :
    ∀ (l : List (List Char × ℚ)) (cur : ℚ) (pre post : List S2TTiming) (x y : S2TTiming),
      estimateAux se tw sd cur l = pre ++ x :: y :: post →
      0.1 ≤ x.stop - x.start := by
  intro l
  induction l with
  | nil =>
    intro cur pre post x y h
    simp only [estimateAux] at h
    cases pre <;> simp at h
  | cons p rest ih =>
    intro cur pre post x y h
    obtain ⟨w, wt⟩ := p
    simp only [estimateAux] at h
    by_cases hclamp : cur + max ((wt / tw) * sd) 0.1 > se
    · rw [if_pos hclamp] at h
      rw [if_pos (by linarith : cur + (se - cur) ≥ se)] at h
      cases pre with
      | nil => simp at h
      | cons p0 pre' => cases pre' <;> simp at h
    · rw [if_neg hclamp] at h
      by_cases hend : cur + max ((wt / tw) * sd) 0.1 ≥ se
      · rw [if_pos hend] at h
        cases pre with
        | nil => simp at h
        | cons p0 pre' => cases pre' <;> simp at h
      · rw [if_neg hend] at h
        cases pre with
        | nil =>
          simp only [List.nil_append] at h
          injection h with h1 h2
          subst h1
          show (0.1 : ℚ) ≤ (cur + max ((wt / tw) * sd) 0.1) - cur
          have := le_max_right ((wt / tw) * sd) (0.1 : ℚ)
          linarith
        | cons p0 pre' =>
          simp only [List.cons_append] at h
          injection h with h1 h2
          exact ih _ pre' post x y h2

end WhisperS2T

/-- C7 (amended): in the phonetic estimator every timing entry except
possibly the final one has duration at least 0.1 s; the final entry may be
shorter because it is clamped to the segment end. -/
theorem c7_min_duration_amended :
    ∀ (words : List (List Char)) (segStart segEnd : ℚ)
      (pre post : List WhisperS2T.S2TTiming) (x y : WhisperS2T.S2TTiming),
      WhisperS2T.estimateNaturalWordTiming words segStart segEnd = pre ++ x :: y :: post →
      (0.1 : ℚ) ≤ x.stop - x.start := by
  intro words segStart segEnd pre post x y h
  simp only [WhisperS2T.estimateNaturalWordTiming] at h
  split at h
  · cases pre <;> simp at h
  · exact WhisperS2T.estimateAux_nonlast_duration _ _ _ _ _ pre post x y h

/-- Evaluation of the estimator on a short segment: the trailing entry is
clamped below the 0.1 s floor. -/
theorem estimateSmallSegEval :
    WhisperS2T.estimateNaturalWordTiming [chars "a", chars "b"] 0 0.15 =
      [⟨chars "a", 0, 0.1, 0.9⟩, ⟨chars "b", 0.1, 0.15, 0.9⟩] := by
  have h1 : WhisperS2T.wordWeight (chars "a") = 0.7 := by
    rw [WhisperS2T.wordWeight]
    norm_num +decide [WhisperS2T.estimateSyllables]
  have h2 : WhisperS2T.wordWeight (chars "b") = 1 := by
    rw [WhisperS2T.wordWeight]
    norm_num +decide [WhisperS2T.estimateSyllables]
  rw [WhisperS2T.estimateNaturalWordTiming]
  norm_num [h1, h2, WhisperS2T.estimateAux]

/-- Counterexample to C7 as stated: on a 0.15 s segment with two words the
final entry lasts only 0.05 s. -/
theorem c7_counterexample :
    ∃ en ∈ WhisperS2T.estimateNaturalWordTiming [chars "a", chars "b"] 0 0.15,
      en.stop - en.start < 0.1 := by
  rw [estimateSmallSegEval]
  refine ⟨⟨chars "b", 0.1, 0.15, 0.9⟩, by simp, by norm_num⟩

/-- Evaluation of the estimator on a long segment with two words. -/
theorem estimateHelloWorldEval :
    WhisperS2T.estimateNaturalWordTiming [chars "hello", chars "world"] 0 10 =
      [⟨chars "hello", 0, 20/3, 0.9⟩, ⟨chars "world", 20/3, 10, 0.9⟩] := by
  have h1 : WhisperS2T.wordWeight (chars "hello") = 2 := by
    rw [WhisperS2T.wordWeight]
    norm_num +decide [WhisperS2T.estimateSyllables]
  have h2 : WhisperS2T.wordWeight (chars "world") = 1 := by
    rw [WhisperS2T.wordWeight]
    norm_num +decide [WhisperS2T.estimateSyllables]
  rw [WhisperS2T.estimateNaturalWordTiming]
  norm_num [h1, h2, WhisperS2T.estimateAux]

/-- Witness for C7: the first (non-final) entry of a two-word estimate meets
the 0.1 s floor. -/
theorem c7_witness :
    WhisperS2T.estimateNaturalWordTiming [chars "hello", chars "world"] 0 10 =
      [⟨chars "hello", 0, 20/3, 0.9⟩, ⟨chars "world", 20/3, 10, 0.9⟩] ∧
    (0.1 : ℚ) ≤ (20 / 3 : ℚ) - 0 := by
  refine ⟨estimateHelloWorldEval, ?_⟩
  exact c7_min_duration_amended [chars "hello", chars "world"] 0 10 [] []
    ⟨chars "hello", 0, 20/3, 0.9⟩ ⟨chars "world", 20/3, 10, 0.9⟩
    (by simpa using estimateHelloWorldEval)

/-- C6: when the anchor count equals the TTS word count, reconciliation is
the 1:1 fast path: the output keeps each anchor's start and end in order
(its words are the TTS words), and when the TTS words equal the anchors'
words the anchors are returned entirely unchanged. -/
theorem c6_identity_fast_path :
    ∀ (ttsWords : List (List Char)) (anchors : List VideoGen.WordT),
      ttsWords.length = anchors.length →
      ((VideoGen.alignTtsTextWithWhisperTiming ttsWords anchors).map (fun e => e.start) =
          anchors.map (fun a => a.start) ∧
        (VideoGen.alignTtsTextWithWhisperTiming ttsWords anchors).map (fun e => e.stop) =
          anchors.map (fun a => a.stop) ∧
        (VideoGen.alignTtsTextWithWhisperTiming ttsWords anchors).map (fun e => e.word) =
          ttsWords) ∧
      (ttsWords = anchors.map (fun a => a.word) →
        VideoGen.alignTtsTextWithWhisperTiming ttsWords anchors = anchors) := by
  intro ttsWords anchors h
  have halign : VideoGen.alignTtsTextWithWhisperTiming ttsWords anchors =
      (ttsWords.zip anchors).map (fun p => (⟨p.1, p.2.start, p.2.stop⟩ : VideoGen.WordT)) := by
    simp [VideoGen.alignTtsTextWithWhisperTiming, h]
  refine ⟨by rw [halign]; exact VideoGen.zipMap_starts ttsWords anchors h, ?_⟩
  intro hw
  rw [halign, hw]
  exact VideoGen.zipMap_identity anchors

/-- Witness for C6 at a concrete equal-count input. -/
theorem c6_witness :
    ((VideoGen.alignTtsTextWithWhisperTiming [chars "hi", chars "there"]
          [⟨chars "hi", 0, 1⟩, ⟨chars "there", 2, 3⟩]).map (fun e => e.start) =
        ([⟨chars "hi", (0:ℚ), 1⟩, ⟨chars "there", 2, 3⟩] : List VideoGen.WordT).map
          (fun a => a.start) ∧
      (VideoGen.alignTtsTextWithWhisperTiming [chars "hi", chars "there"]
          [⟨chars "hi", 0, 1⟩, ⟨chars "there", 2, 3⟩]).map (fun e => e.stop) =
        ([⟨chars "hi", (0:ℚ), 1⟩, ⟨chars "there", 2, 3⟩] : List VideoGen.WordT).map
          (fun a => a.stop) ∧
      (VideoGen.alignTtsTextWithWhisperTiming [chars "hi", chars "there"]
          [⟨chars "hi", 0, 1⟩, ⟨chars "there", 2, 3⟩]).map (fun e => e.word) =
        [chars "hi", chars "there"]) ∧
    ([chars "hi", chars "there"] =
        ([⟨chars "hi", (0:ℚ), 1⟩, ⟨chars "there", 2, 3⟩] : List VideoGen.WordT).map
          (fun a => a.word) →
      VideoGen.alignTtsTextWithWhisperTiming [chars "hi", chars "there"]
          [⟨chars "hi", 0, 1⟩, ⟨chars "there", 2, 3⟩] =
        [⟨chars "hi", 0, 1⟩, ⟨chars "there", 2, 3⟩]) :=
  c6_identity_fast_path [chars "hi", chars "there"]
    [⟨chars "hi", 0, 1⟩, ⟨chars "there", 2, 3⟩] (by decide)
